import Mathlib

/-!
# Verification of the crawl-and-extract engine of the Email Scraper web app

This file gives a shallow embedding of the server core of the repository
(`src/server/scraper.ts`, `src/server/routes.ts`, `src/server/utils.ts`) and
proves or refutes the frozen claims about it.

Modelling conventions:
* JavaScript strings are Lean `String`s; the regex scans of the source
  (`EMAIL_REGEX`, `ENCODED_EMAIL_REGEX`, the `[at]`-rewrite, `String.prototype.match`
  with the `g` flag) are implemented over `List Char` with JavaScript's
  leftmost, greedy-with-backtracking semantics specialised to those patterns.
* The platform primitives the code calls — `axios.get`/`fetch` (the network),
  `new URL(...)` (WHATWG URL parsing) and cheerio's DOM queries — are an
  explicit environment `CrawlEnv`/`Page`: `fetch` returns `none` for any
  axios failure (timeout, HTTP error, network error), `host u` is
  `new URL(u).hostname` (`none` when the constructor throws), `origin u` is
  `protocol + "//" + host` of `u`, a fetched `Page` carries the visible text
  cheerio extracts (`$("body").text()` after removing script/style) and the
  `href` attributes of its anchor elements in document order.
* JavaScript `Set` accumulation (insertion-ordered, first occurrence kept)
  is `dedupKeepFirst` / `addAll`.
-/

namespace EmailScraper

/-! ## JavaScript string primitives -/

/-- `String.prototype.startsWith` of JavaScript. -/
def strStarts (s p : String) : Bool := p.data.isPrefixOf s.data

/-- `String.prototype.toLowerCase` (ASCII-faithful). -/
def lowerStr (s : String) : String := ⟨s.data.map Char.toLower⟩

/-- Helper for `jsIncludes`: does `sub` occur as a contiguous run of `l`? -/
def inclAux (sub : List Char) : List Char → Bool
  | [] => sub.isPrefixOf []
  | c :: t => sub.isPrefixOf (c :: t) || inclAux sub t

/-- `String.prototype.includes` of JavaScript. -/
def jsIncludes (s sub : String) : Bool := inclAux sub.data s.data

/-- The character set JavaScript's `\s` matches. -/
def wsChars : List Char :=
  [' ', '\t', '\n', '\r', '\x0b', '\x0c', '\u00a0', '\u1680',
   '\u2000', '\u2001', '\u2002', '\u2003', '\u2004', '\u2005', '\u2006',
   '\u2007', '\u2008', '\u2009', '\u200a', '\u2028', '\u2029', '\u202f',
   '\u205f', '\u3000', '\ufeff']

def isWsChar (c : Char) : Bool := wsChars.contains c

/-- The local-part character class `[a-zA-Z0-9._%+-]` of `EMAIL_REGEX`
(scraper.ts line 5). -/
def isLocalChar (c : Char) : Bool :=
  c.isAlphanum || c == '.' || c == '_' || c == '%' || c == '+' || c == '-'

/-- The domain character class `[a-zA-Z0-9.-]` of `EMAIL_REGEX`. -/
def isDomChar (c : Char) : Bool := c.isAlphanum || c == '.' || c == '-'

/-! ## The two email regexes of scraper.ts (lines 5-6)

`EMAIL_REGEX = /[a-zA-Z0-9._%+-]+@[a-zA-Z0-9.-]+\.[a-zA-Z]{2,}/g` and
`ENCODED_EMAIL_REGEX = /[a-zA-Z0-9._%+-]+\s*\[at\]\s*[a-zA-Z0-9.-]+\.[a-zA-Z]{2,}/g`,
with JavaScript matching semantics: at a given start position the local part
`[...]+` is the maximal run (no backtracking can help, since the character the
pattern needs next is never in the class); the domain `[a-zA-Z0-9.-]+\.[a-zA-Z]{2,}`
is resolved inside the maximal `[a-zA-Z0-9.-]` run by greedy backtracking: the
largest split index `k` holding a literal dot followed by at least two letters
wins, and `[a-zA-Z]{2,}` then takes the maximal letter run. -/

/-- The maximal `[a-zA-Z]` run after position `k` of the domain run
(the `{2,}` tail candidate). -/
def domTail (run : List Char) (k : Nat) : List Char :=
  (run.drop (k + 1)).takeWhile Char.isAlpha

/-- Does splitting the domain run at index `k` satisfy `\.[a-zA-Z]{2,}`? -/
def splitOK (run : List Char) (k : Nat) : Bool :=
  (run.get? k == some '.') && decide (2 ≤ (domTail run k).length)

/-- Greedy backtracking of `[a-zA-Z0-9.-]+`: try the split index from `k`
downwards (the pattern needs at least one domain character before the dot,
so index `0` is never a split). -/
def searchDot (run : List Char) : Nat → Option Nat
  | 0 => none
  | k + 1 => if splitOK run (k + 1) then some (k + 1) else searchDot run k

/-- Match `[a-zA-Z0-9.-]+\.[a-zA-Z]{2,}` at the head of `l`:
`some (matched, rest)` or `none`. -/
def matchDomainAt (l : List Char) : Option (List Char × List Char) :=
  let run := l.takeWhile isDomChar
  match searchDot run (run.length - 1) with
  | none => none
  | some k =>
    let t := domTail run k
    some (run.take k ++ '.' :: t, l.drop (k + 1 + t.length))

/-- Match `EMAIL_REGEX` at the head of `l`. -/
def matchEmailAt (l : List Char) : Option (List Char × List Char) :=
  let loc := l.takeWhile isLocalChar
  if loc.isEmpty then none
  else
    match l.dropWhile isLocalChar with
    | '@' :: r2 =>
      match matchDomainAt r2 with
      | some (dom, rest) => some (loc ++ '@' :: dom, rest)
      | none => none
    | _ => none

/-- Match `ENCODED_EMAIL_REGEX` at the head of `l`.  The `\s*` runs are
maximal whitespace runs: shrinking one by backtracking leaves a whitespace
character where the literal `[` (or, for the second run, a character of
`[a-zA-Z0-9.-]+`) is required, so it never helps. -/
def matchEncodedAt (l : List Char) : Option (List Char × List Char) :=
  let loc := l.takeWhile isLocalChar
  if loc.isEmpty then none
  else
    let r1 := l.dropWhile isLocalChar
    let ws1 := r1.takeWhile isWsChar
    let r2 := r1.dropWhile isWsChar
    if r2.take 4 = ['[', 'a', 't', ']'] then
      let r3 := r2.drop 4
      let ws2 := r3.takeWhile isWsChar
      match matchDomainAt (r3.dropWhile isWsChar) with
      | some (dom, rest) =>
        some (loc ++ ws1 ++ '[' :: 'a' :: 't' :: ']' :: ws2 ++ dom, rest)
      | none => none
    else none

/-- `text.match(re)` with the `g` flag: scan left to right, record each match,
resume after it; on failure advance one position.  The fuel is the text
length, which every step consumes at least one character of. -/
def scanAll (f : List Char → Option (List Char × List Char)) :
    Nat → List Char → List (List Char)
  | 0, _ => []
  | _ + 1, [] => []
  | fuel + 1, c :: t =>
    match f (c :: t) with
    | some (m, rest) => m :: scanAll f fuel rest
    | none => scanAll f fuel t

def jsEmailMatches (l : List Char) : List (List Char) := scanAll matchEmailAt l.length l

def jsEncodedMatches (l : List Char) : List (List Char) := scanAll matchEncodedAt l.length l

/-- Match `\s*\[at\]\s*` at the head of `l`; `some rest` gives what follows
the matched span.  Backtracking on the leading `\s*` never helps: shrinking
it leaves a whitespace character where the literal `[` is required. -/
def matchTokAt (l : List Char) : Option (List Char) :=
  let r := l.dropWhile isWsChar
  if r.take 4 = ['[', 'a', 't', ']'] then some ((r.drop 4).dropWhile isWsChar)
  else none

/-- `encoded.replace(/\s*\[at\]\s*/, "@")` (scraper.ts line 125): replace the
leftmost match of the token (if any) with `"@"`. -/
def replTok : List Char → List Char
  | [] => []
  | c :: t =>
    match matchTokAt (c :: t) with
    | some rest => '@' :: rest
    | none => c :: replTok t

/-- JavaScript `String.prototype.trim`. -/
def trimChars (l : List Char) : List Char :=
  ((l.dropWhile isWsChar).reverse.dropWhile isWsChar).reverse

/-- `[...new Set(l)]`: insertion-ordered deduplication, first occurrence kept. -/
def dedupAux (seen : List String) : List String → List String
  | [] => []
  | x :: xs => if x ∈ seen then dedupAux seen xs else x :: dedupAux (x :: seen) xs

def dedupKeepFirst (l : List String) : List String := dedupAux [] l

/-- The `mailto:` branch of `extractEmailsFromHTML` (scraper.ts lines 131-137):
anchors whose href starts with `mailto:`; strip the prefix, trim, drop any
`?query` suffix, keep it when `EMAIL_REGEX` matches somewhere in it. -/
def mailtoEmails (anchors : List String) : List String :=
  anchors.filterMap fun h =>
    if strStarts h "mailto:" then
      let e := (trimChars (h.data.drop 7)).takeWhile (fun c => c != '?')
      if (jsEmailMatches e).isEmpty then none else some (String.mk e)
    else none

/-- `extractEmailsFromHTML` (scraper.ts lines 112-140).  `text` is the visible
text cheerio extracts from the page (script/style removed), `anchors` the
href attributes of the page's anchor elements; both are the cheerio/DOM
environment of the function.  Pushes standard matches, then rewritten
`[at]`-matches that re-validate against `EMAIL_REGEX`, then `mailto:`
addresses, and returns `[...new Set(emails)]`. -/
def extractEmailsFromHTML (text : List Char) (anchors : List String) : List String :=
  dedupKeepFirst
    ((jsEmailMatches text).map String.mk
      ++ (jsEncodedMatches text).filterMap (fun m =>
            let e := replTok m
            if (jsEmailMatches e).isEmpty then none else some (String.mk e))
      ++ mailtoEmails anchors)

/-! ## The site crawler (scraper.ts lines 142-219)

`crawlWebsite` is a while loop over a frontier queue, a visited set, a page
counter and an accumulated email set.  The loop body dequeues, skips falsy or
already-visited URLs, otherwise marks visited, counts the page, fetches it,
extracts emails, and (while under budget) enqueues same-domain links.  The
model restructures the loop as: stop when the budget is exhausted; drop the
skipped queue heads (which change nothing but the queue); then visit the next
fresh URL — a step that always consumes one unit of budget, so the recursion
is structural on the remaining budget `maxPages - pagesVisited`.  The state
additionally carries `log`, the list of URLs passed to `axios.get` in order —
pure instrumentation to state fetch-trace properties; it affects nothing. -/

/-- A successfully fetched page, as the cheerio environment presents it:
the visible body text and the anchor `href`s in document order. -/
structure Page where
  text : List Char
  hrefs : List String

/-- The platform environment of the crawler: the network and WHATWG URL
parsing.  `fetch u = none` models any axios failure (timeout, non-2xx,
network error); `host u = none` models `new URL(u)` throwing; `origin u`
is `protocol + "//" + host` of `u` for resolving root-relative links. -/
structure CrawlEnv where
  fetch : String → Option Page
  host : String → Option String
  origin : String → Option String

/-- `normalizeUrl` (scraper.ts lines 23-28). -/
def normalizeUrl (url : String) : String :=
  if !strStarts url "http://" && !strStarts url "https://" then "https://" ++ url
  else url

/-- `hostname.replace(/^www\./, "")` (scraper.ts line 37). -/
def stripWww (h : String) : String :=
  if strStarts h "www." then ⟨h.data.drop 4⟩ else h

/-- `extractDomain` (scraper.ts lines 33-42): normalize, parse, strip a
leading `www.`; on a parse failure return the raw input. -/
def extractDomain (env : CrawlEnv) (url : String) : String :=
  match env.host (normalizeUrl url) with
  | some h => stripWww h
  | none => url

/-- The href-rewriting block of the link loop (scraper.ts lines 186-193):
root-relative hrefs are resolved against the current page's origin (skip the
anchor when `new URL(currentUrl)` throws), non-`http` hrefs are skipped,
anything else is used as is. -/
def resolveHref (env : CrawlEnv) (currentUrl href : String) : Option String :=
  if strStarts href "/" then (env.origin currentUrl).map (fun o => o ++ href)
  else if !strStarts href "http" then none
  else some href

/-- The link-collection loop (scraper.ts lines 183-204): resolve each href
and keep it when its extracted domain equals the crawl domain and it is not
yet visited. -/
def collectLinks (env : CrawlEnv) (domain : String) (visited : List String)
    (currentUrl : String) (hrefs : List String) : List String :=
  hrefs.filterMap fun href =>
    match resolveHref env currentUrl href with
    | some r => if extractDomain env r = domain ∧ r ∉ visited then some r else none
    | none => none

/-- Add each element to a JavaScript `Set` accumulated as an
insertion-ordered duplicate-free list. -/
def addAll (acc : List String) : List String → List String
  | [] => acc
  | e :: es => addAll (if e ∈ acc then acc else acc ++ [e]) es

structure CrawlState where
  queue : List String
  visited : List String
  emails : List String
  pages : Nat
  log : List String

/-- The skip branch of the loop (scraper.ts lines 155-158): discard queue
heads that are falsy (the empty string) or already visited. -/
def dropVisited (visited : List String) : List String → List String
  | [] => []
  | u :: rest => if u = "" ∨ u ∈ visited then dropVisited visited rest else u :: rest

/-- One visit of the loop body (scraper.ts lines 160-208): mark `u` visited,
count the page, fetch it (a failure changes nothing else), extract and merge
the page's emails, and — when still under budget after the increment — append
the page's same-domain unvisited links to the frontier. -/
def crawlVisit (env : CrawlEnv) (domain : String) (maxPages : Nat)
    (s : CrawlState) (u : String) (rest : List String) : CrawlState :=
  match env.fetch u with
  | none =>
    { queue := rest, visited := s.visited ++ [u], emails := s.emails,
      pages := s.pages + 1, log := s.log ++ [u] }
  | some pg =>
    if s.pages + 1 < maxPages then
      { queue := rest ++ collectLinks env domain (s.visited ++ [u]) u pg.hrefs,
        visited := s.visited ++ [u],
        emails := addAll s.emails (extractEmailsFromHTML pg.text pg.hrefs),
        pages := s.pages + 1, log := s.log ++ [u] }
    else
      { queue := rest, visited := s.visited ++ [u],
        emails := addAll s.emails (extractEmailsFromHTML pg.text pg.hrefs),
        pages := s.pages + 1, log := s.log ++ [u] }

/-- The crawl loop (scraper.ts lines 154-212), structurally recursive on the
remaining page budget; invoked with `remaining = maxPages - s.pages`. -/
def crawlGo (env : CrawlEnv) (domain : String) (maxPages : Nat) :
    Nat → CrawlState → CrawlState
  | 0, s => s
  | remaining + 1, s =>
    match dropVisited s.visited s.queue with
    | [] => { s with queue := [] }
    | u :: rest => crawlGo env domain maxPages remaining (crawlVisit env domain maxPages s u rest)

/-- `crawlWebsite` (scraper.ts lines 145-219), with the final `CrawlState`
exposed; the function's return value is the `emails` field. -/
def crawlWebsiteRun (env : CrawlEnv) (url : String) (maxPages : Nat) : CrawlState :=
  crawlGo env (extractDomain env url) maxPages maxPages
    { queue := [normalizeUrl url], visited := [], emails := [], pages := 0, log := [] }

def crawlWebsite (env : CrawlEnv) (url : String) (maxPages : Nat) : List String :=
  (crawlWebsiteRun env url maxPages).emails

/-- The fixed path list of `searchForEmails` (scraper.ts lines 76-85). -/
def commonPaths : List String :=
  ["/contact", "/about", "/team", "/support", "/contact-us", "/get-in-touch",
   "/staff", "/directory"]

/-- `searchForEmails` (scraper.ts lines 47-105): crawl each common path with
a budget of one page, collect everything, and return `[...new Set(emails)]`. -/
def searchForEmails (env : CrawlEnv) (domain : String) : List String :=
  dedupKeepFirst (commonPaths.flatMap fun p => crawlWebsite env ("https://" ++ domain ++ p) 1)

/-- `scrapeEmails` (scraper.ts lines 227-247): the union (as a `Set`) of the
direct crawl (default budget 3) and the common-path probe. -/
def scrapeEmails (env : CrawlEnv) (url : String) : List String :=
  dedupKeepFirst (crawlWebsite env url 3 ++ searchForEmails env (extractDomain env url))

/-! ## The site processor (routes.ts lines 19-79) -/

structure SiteResult where
  website : String
  emails : List String
  error : Option String
  deriving DecidableEq, Repr

/-- How the race inside `processUrlWithTimeout` resolves for a given target:
the scrape completed first, the timeout fired first, or the scrape threw. -/
inductive ProcOutcome where
  | completed
  | timeout
  | exn
  deriving DecidableEq, Repr

/-- The `website` computed at routes.ts lines 24-34: the hostname of the
normalized URL or, when `new URL` throws, the (already normalized, since the
`url` variable was reassigned inside the `try`) raw string. -/
def websiteOf (env : CrawlEnv) (url : String) : String :=
  match env.host (normalizeUrl url) with
  | some h => h
  | none => normalizeUrl url

/-- `processUrlWithTimeout` (routes.ts lines 19-79).  The function installs a
timeout that resolves `{website, emails: []}`, otherwise awaits
`scrapeEmails` and resolves with the first 15 emails; any exception resolves
`{website, emails: []}`.  Every branch resolves — the model is a total
function — and none of them ever sets an `error` field. -/
def processUrlWithTimeout (env : CrawlEnv) (outcome : ProcOutcome) (url : String) :
    SiteResult :=
  let website := websiteOf env url
  match outcome with
  | .timeout => { website := website, emails := [], error := none }
  | .exn => { website := website, emails := [], error := none }
  | .completed =>
    { website := website, emails := (scrapeEmails env (normalizeUrl url)).take 15,
      error := none }

/-! ## The streaming job route (routes.ts lines 180-254) -/

structure ProgressEvent where
  website : String
  emails : List String
  error : Option String
  processedCount : Nat
  totalCount : Nat
  currentWebsite : String
  deriving DecidableEq, Repr

inductive StreamEvent where
  | progress (p : ProgressEvent)
  | done
  deriving DecidableEq, Repr

inductive RouteErr where
  | badRequest
  | notFound
  deriving DecidableEq, Repr

/-- The per-target normalization of the stream loop (routes.ts line 206):
`currentUrl.startsWith("http") ? currentUrl : "https://" + currentUrl`. -/
def routeNormalize (u : String) : String :=
  if strStarts u "http" then u else "https://" ++ u

/-- The body of the stream loop (routes.ts lines 202-232): one progress event
per target in order (`proc` abstracts `processUrlWithTimeout`, which by
construction always resolves; the `catch` branch embeds the error message),
then the single `done` event. -/
def streamEvents (proc : String → Except String SiteResult) (total : Nat) :
    Nat → List String → List StreamEvent
  | _, [] => [.done]
  | i, url :: rest =>
    let ev : ProgressEvent :=
      match proc (routeNormalize url) with
      | .ok r =>
        { website := r.website, emails := r.emails, error := none,
          processedCount := i + 1, totalCount := total, currentWebsite := url }
      | .error msg =>
        { website := url, emails := [],
          error := some ("Failed to process this URL: "
            ++ (if msg = "" then "Unknown error" else msg)),
          processedCount := i + 1, totalCount := total, currentWebsite := url }
    .progress ev :: streamEvents proc total (i + 1) rest

/-- `jobStore.get` (a JavaScript `Map` with unique keys, modelled as an
association list: first match wins). -/
def lookupStore (store : List (String × List String)) (jobId : String) :
    Option (List String) :=
  match store with
  | [] => none
  | (k, v) :: rest => if k = jobId then some v else lookupStore rest jobId

/-- `jobStore.delete jobId`. -/
def deleteStore (store : List (String × List String)) (jobId : String) :
    List (String × List String) :=
  store.filter (fun e => e.1 != jobId)

/-- The `GET /api/scrape-stream` handler (routes.ts lines 181-254): 400 when
the job id is falsy, 404 when unknown; otherwise emit the event sequence and
delete the job in the `finally` step.  Returns the response and the job
store after the request. -/
def scrapeStreamRoute (proc : String → Except String SiteResult)
    (store : List (String × List String)) (jobId : String) :
    Except RouteErr (List StreamEvent) × List (String × List String) :=
  if jobId = "" then (.error .badRequest, store)
  else
    match lookupStore store jobId with
    | none => (.error .notFound, store)
    | some urls => (.ok (streamEvents proc urls.length 0 urls), deleteStore store jobId)

/-! ## The domain resolver (utils.ts lines 3-92)

The claim's cited region is the scoring/selection block (lines 62-86).  The
link-regex extraction, redirect decoding and denylist filtering (lines 9-60)
produce the `potentialDomains` array — here the input `List Candidate`, each
candidate being a surviving link's www-stripped host and its tag-stripped
link text. -/

structure Candidate where
  domain : String
  text : String
  deriving DecidableEq, Repr

/-- `/generic|platform|service/i.test(s)` (utils.ts lines 80-81). -/
def genericTerm (s : String) : Bool :=
  let d := lowerStr s
  jsIncludes d "generic" || jsIncludes d "platform" || jsIncludes d "service"

/-- The score the comparator of utils.ts lines 65-83 assigns one candidate
against the lowercased query. -/
def candScore (lq : String) (c : Candidate) : Int :=
  (if jsIncludes c.domain lq then 3 else 0)
    + (if jsIncludes (lowerStr c.text) lq then 2 else 0)
    + (if strStarts c.domain lq then 1 else 0)
    - (if genericTerm c.domain && !genericTerm lq then 1 else 0)

/-- Stable insertion (the earlier element wins ties): the element goes before
the first strictly lower-scoring one. -/
def insertCand (lq : String) (x : Candidate) : List Candidate → List Candidate
  | [] => [x]
  | y :: ys =>
    if candScore lq x ≥ candScore lq y then x :: y :: ys else y :: insertCand lq x ys

/-- `potentialDomains.sort((a, b) => scoreB - scoreA)`: JavaScript's sort is
stable and the comparator is a fixed per-element score, so the result is the
unique stable descending-score order — computed here by insertion sort. -/
def sortCands (lq : String) : List Candidate → List Candidate
  | [] => []
  | x :: xs => insertCand lq x (sortCands lq xs)

/-- The selection block of `extractDomainFromHtml` (utils.ts lines 62-86,
91): sort the surviving candidates by descending score and return the first
domain, or `null` when none survived. -/
def extractDomainFromHtml (potentialDomains : List Candidate) (query : String) :
    Option String :=
  match sortCands (lowerStr query) potentialDomains with
  | [] => none
  | best :: _ => some best.domain

/-! ## The spec's notion of a URL scheme

Used only to settle the normalization claim: the spec says targets are
"normalized by prefixing `https://` when no scheme is present". -/

def isSchemeTailChar (c : Char) : Bool :=
  c.isAlphanum || c == '+' || c == '-' || c == '.'

/-- Modelled from the spec: "a URL scheme is present" — an RFC 3986 scheme,
a letter followed by letters/digits/`+`/`-`/`.` and a colon.  This is the
spec-side notion the normalization claim quantifies over; the source code
itself only ever tests literal `http`/`https` prefixes. -/
def specHasUrlScheme (s : String) : Bool :=
  match s.data with
  | [] => false
  | c :: _ => c.isAlpha && ((s.data.dropWhile isSchemeTailChar).head? == some ':')

/-- A concrete site processor used by the closed witness instances: every
target resolves to a `SiteResult` with its normalized URL as website and no
emails. -/
def procW : String → Except String SiteResult := fun u => .ok { website := u, emails := [], error := none }

/-! # Theorems -/

/-! ## Generic list lemmas for the regex scans and the `Set` model -/

theorem tw_app {p : Char → Bool} :
    ∀ (l₁ l₂ : List Char), (∀ c ∈ l₁, p c = true) →
      (l₁ ++ l₂).takeWhile p = l₁ ++ l₂.takeWhile p := by
  intro l₁ l₂ h
  induction l₁ with
  | nil => simp
  | cons c t ih =>
    have hc : p c = true := h c (by simp)
    simp [List.takeWhile_cons, hc, ih fun x hx => h x (by simp [hx])]

theorem dw_app {p : Char → Bool} :
    ∀ (l₁ l₂ : List Char), (∀ c ∈ l₁, p c = true) →
      (l₁ ++ l₂).dropWhile p = l₂.dropWhile p := by
  intro l₁ l₂ h
  induction l₁ with
  | nil => simp
  | cons c t ih =>
    have hc : p c = true := h c (by simp)
    simp [List.dropWhile_cons, hc, ih fun x hx => h x (by simp [hx])]

theorem tw_nil {p : Char → Bool} :
    ∀ (l : List Char), (∀ c ∈ l, p c = false) → l.takeWhile p = [] := by
  intro l h
  cases l with
  | nil => rfl
  | cons c t => simp [List.takeWhile_cons, h c (by simp)]

theorem mem_dedupAux (x : String) :
    ∀ (l seen : List String), x ∈ dedupAux seen l ↔ x ∈ l ∧ x ∉ seen := by
  intro l
  induction l with
  | nil => intro seen; simp [dedupAux]
  | cons y t ih =>
    intro seen
    by_cases hy : y ∈ seen
    · rw [show dedupAux seen (y :: t) = dedupAux seen t from by simp [dedupAux, hy]]
      rw [ih seen]
      constructor
      · rintro ⟨hx, hs⟩
        exact ⟨List.mem_cons_of_mem _ hx, hs⟩
      · rintro ⟨hx, hs⟩
        rcases List.mem_cons.1 hx with rfl | hx
        · exact absurd hy hs
        · exact ⟨hx, hs⟩
    · rw [show dedupAux seen (y :: t) = y :: dedupAux (y :: seen) t from by
        simp [dedupAux, hy]]
      constructor
      · intro hmem
        rcases List.mem_cons.1 hmem with rfl | hmem
        · exact ⟨List.mem_cons_self _ _, hy⟩
        · obtain ⟨hx, hs⟩ := (ih (y :: seen)).1 hmem
          exact ⟨List.mem_cons_of_mem _ hx, fun hc => hs (List.mem_cons_of_mem _ hc)⟩
      · rintro ⟨hx, hs⟩
        rcases eq_or_ne x y with rfl | hne
        · exact List.mem_cons_self _ _
        · rcases List.mem_cons.1 hx with h1 | h1
          · exact absurd h1 hne
          · refine List.mem_cons_of_mem _ ((ih (y :: seen)).2 ⟨h1, ?_⟩)
            intro hc
            rcases List.mem_cons.1 hc with h2 | h2
            · exact hne h2
            · exact hs h2

theorem nodup_dedupAux : ∀ (l seen : List String), (dedupAux seen l).Nodup := by
  intro l
  induction l with
  | nil => intro seen; simp [dedupAux]
  | cons y t ih =>
    intro seen
    by_cases hy : y ∈ seen
    · rw [show dedupAux seen (y :: t) = dedupAux seen t from by simp [dedupAux, hy]]
      exact ih seen
    · rw [show dedupAux seen (y :: t) = y :: dedupAux (y :: seen) t from by
        simp [dedupAux, hy]]
      refine List.Nodup.cons ?_ (ih (y :: seen))
      intro hmem
      exact ((mem_dedupAux y t (y :: seen)).1 hmem).2 (by simp)

theorem mem_dedupKeepFirst {x : String} {l : List String} (h : x ∈ l) :
    x ∈ dedupKeepFirst l :=
  (mem_dedupAux x l []).2 ⟨h, by simp⟩

theorem nodup_dedupKeepFirst (l : List String) : (dedupKeepFirst l).Nodup :=
  nodup_dedupAux l []

/-! ## C3, C4, C5: the site processor -/

/-- **C3.**  For every target processed by the Site Processor
(`processUrlWithTimeout`), the `emails` list of the returned `SiteResult` has
at most 15 entries and contains no duplicate strings (case-sensitive
exact-match deduplication — the `Set`s of `scrapeEmails` and
`extractEmailsFromHTML` compare the extracted strings as they are, with no
case normalization), for every environment and however the internal race
resolves. -/
theorem processUrl_emails_bounded_nodup (env : CrawlEnv) (outcome : ProcOutcome)
    (url : String) :
    (processUrlWithTimeout env outcome url).emails.length ≤ 15 ∧
      (processUrlWithTimeout env outcome url).emails.Nodup := by
  cases outcome with
  | timeout => simp [processUrlWithTimeout]
  | exn => simp [processUrlWithTimeout]
  | completed =>
    refine ⟨?_, ?_⟩
    · simp [processUrlWithTimeout]
    · have hnd : (scrapeEmails env (normalizeUrl url)).Nodup :=
        nodup_dedupKeepFirst _
      simpa [processUrlWithTimeout] using (List.take_sublist 15 _).nodup hnd

/-- **C4.**  For every input URL and every environment, the Site Processor
(`processUrlWithTimeout`) always resolves with a `SiteResult` (the model is a
total function: every branch of the source resolves its promise) and never
propagates an exception; in particular, when the discovery step throws, it
resolves with `{ website, emails := [] }`, and the `website` field is the one
computed up front in every case. -/
theorem processUrl_always_resolves (env : CrawlEnv) (url : String) :
    processUrlWithTimeout env .exn url
        = { website := websiteOf env url, emails := [], error := none } ∧
      ∀ outcome, (processUrlWithTimeout env outcome url).website = websiteOf env url := by
  refine ⟨rfl, ?_⟩
  intro outcome
  cases outcome <;> rfl

/-- **C5.**  If discovery for a target exceeds the overall per-target
timeout, the Site Processor returns `{ website, emails := [] }` with the
`error` field absent (`none`): the timeout is reported as nothing found, not
as a failure. -/
theorem processUrl_timeout_silent (env : CrawlEnv) (url : String) :
    processUrlWithTimeout env .timeout url
        = { website := websiteOf env url, emails := [], error := none } ∧
      (processUrlWithTimeout env .timeout url).error = none :=
  ⟨rfl, rfl⟩

/-! ## C8: target normalization -/

/-- **C8, counterexample.**  The claim "normalization prefixes `https://`
exactly when the target has no URL scheme, and leaves a target that already
has a scheme unchanged" fails on the code: `"ftp://example.com"` has a URL
scheme (`ftp`), yet `normalizeUrl` prefixes it (the code only tests for the
literal prefixes `http://`/`https://`); and `"httpfoo.bar"` has no scheme,
yet the stream-loop normalization (routes.ts line 206, which tests the bare
prefix `http`) leaves it unchanged. -/
theorem normalization_scheme_counterexample :
    specHasUrlScheme "ftp://example.com" = true ∧
      normalizeUrl "ftp://example.com" = "https://ftp://example.com" ∧
      "https://ftp://example.com" ≠ "ftp://example.com" ∧
      specHasUrlScheme "httpfoo.bar" = false ∧
      routeNormalize "httpfoo.bar" = "httpfoo.bar" := by
  refine ⟨by decide, by decide, by decide, by decide, by decide⟩

/-- **C8, amended.**  `normalizeUrl` prefixes `https://` exactly when the
target starts with neither `http://` nor `https://` (so a target with a
non-http scheme such as `ftp://` is also prefixed), and returns the target
unchanged exactly when it has one of those two prefixes; the stream route's
per-target normalization instead prefixes exactly when the target does not
start with the bare string `http` (so a schemeless target beginning with
`http`, such as `httpfoo.bar`, is not prefixed).  The normalized form is what
is processed. -/
theorem normalization_amended (u : String) :
    (normalizeUrl u = u ↔ (strStarts u "http://" || strStarts u "https://") = true) ∧
      ((strStarts u "http://" || strStarts u "https://") = false →
        normalizeUrl u = "https://" ++ u) ∧
      (routeNormalize u = u ↔ strStarts u "http" = true) ∧
      (strStarts u "http" = false → routeNormalize u = "https://" ++ u) := by
  have hne : "https://" ++ u ≠ u := by
    intro h
    have hlen := congrArg String.length h
    rw [String.length_append] at hlen
    have h8 : "https://".length = 8 := rfl
    omega
  cases ha : strStarts u "http://" <;> cases hb : strStarts u "https://" <;>
    cases hc : strStarts u "http" <;>
      simp [normalizeUrl, routeNormalize, ha, hb, hc, hne]

/-! ## C6: the domain resolver's candidate selection -/

/-- **C6, counterexample.**  A results page with two surviving candidates
where only the second candidate's domain contains the query substring, yet
the resolver selects the first: the first earns the link-text bonus (+2), the
second earns the domain-containment bonus (+3) but incurs the generic-term
penalty (−1); the scores tie at 2 and the comparator's stable sort keeps the
earlier candidate first. -/
theorem extractDomainFromHtml_counterexample :
    jsIncludes "thegenericacme.com" (lowerStr "acme") = true ∧
      jsIncludes "other.com" (lowerStr "acme") = false ∧
      extractDomainFromHtml
        [{ domain := "other.com", text := "Acme site" },
         { domain := "thegenericacme.com", text := "home" }] "acme"
        = some "other.com" ∧
      some "other.com" ≠ some "thegenericacme.com" := by
  refine ⟨by decide, by decide, by decide, by decide⟩

/-- **C6, amended.**  Given a results page with exactly two surviving
candidates of which only the later one's domain contains the query substring,
the resolver selects that candidate whenever its total heuristic score
(+3 domain contains, +2 link text contains, +1 domain starts with, −1
generic-term penalty) strictly exceeds the earlier candidate's; on score ties
the earlier candidate wins (stable sort). -/
theorem extractDomainFromHtml_amended (q : String) (a b : Candidate)
    (hb : jsIncludes b.domain (lowerStr q) = true)
    (ha : jsIncludes a.domain (lowerStr q) = false)
    (hs : candScore (lowerStr q) a < candScore (lowerStr q) b) :
    extractDomainFromHtml [a, b] q = some b.domain := by
  have hlt : ¬ candScore (lowerStr q) a ≥ candScore (lowerStr q) b := by omega
  simp [extractDomainFromHtml, sortCands, insertCand, hlt]

/-- Witness for C6's amended theorem at a concrete page: the second
candidate contains the query, the first does not, and the second's score (4)
strictly exceeds the first's (0), so the second is selected despite
appearing later in page order. -/
theorem extractDomainFromHtml_amended_witness :
    extractDomainFromHtml
      [{ domain := "other.com", text := "home" },
       { domain := "acmewidgets.com", text := "x" }] "acme"
      = some "acmewidgets.com" :=
  extractDomainFromHtml_amended "acme"
    { domain := "other.com", text := "home" }
    { domain := "acmewidgets.com", text := "x" }
    (by decide) (by decide) (by decide)

/-! ## C2, C9: the streaming job route -/

theorem streamEvents_length (proc : String → Except String SiteResult) (total : Nat) :
    ∀ (urls : List String) (k : Nat),
      (streamEvents proc total k urls).length = urls.length + 1 := by
  intro urls
  induction urls with
  | nil => intro k; rfl
  | cons u t ih => intro k; simp [streamEvents, ih]

theorem streamEvents_get_progress (proc : String → Except String SiteResult)
    (total : Nat) :
    ∀ (urls : List String) (k i : Nat), i < urls.length →
      ∃ p, (streamEvents proc total k urls)[i]? = some (.progress p) ∧
        p.processedCount = k + i + 1 ∧ p.totalCount = total ∧
        urls[i]? = some p.currentWebsite := by
  intro urls
  induction urls with
  | nil => intro k i h; exact absurd h (by simp)
  | cons u t ih =>
    intro k i h
    cases i with
    | zero =>
      cases hp : proc (routeNormalize u) with
      | ok r =>
        refine ⟨{ website := r.website, emails := r.emails, error := none,
                  processedCount := k + 1, totalCount := total, currentWebsite := u },
          ?_, rfl, rfl, by simp⟩
        simp [streamEvents, hp]
      | error msg =>
        refine ⟨{ website := u, emails := [],
                  error := some ("Failed to process this URL: "
                    ++ if msg = "" then "Unknown error" else msg),
                  processedCount := k + 1, totalCount := total, currentWebsite := u },
          ?_, rfl, rfl, by simp⟩
        simp [streamEvents, hp]
    | succ j =>
      have hj : j < t.length := by simpa using h
      obtain ⟨p, h1, h2, h3, h4⟩ := ih (k + 1) j hj
      refine ⟨p, ?_, by omega, h3, by simpa using h4⟩
      simpa [streamEvents] using h1

theorem streamEvents_last (proc : String → Except String SiteResult) (total : Nat) :
    ∀ (urls : List String) (k : Nat),
      (streamEvents proc total k urls)[urls.length]? = some .done := by
  intro urls
  induction urls with
  | nil => intro k; rfl
  | cons u t ih => intro k; simpa [streamEvents] using ih (k + 1)

theorem lookupStore_delete (store : List (String × List String)) (jobId : String) :
    lookupStore (deleteStore store jobId) jobId = none := by
  induction store with
  | nil => rfl
  | cons e rest ih =>
    by_cases he : e.1 = jobId
    · have : deleteStore (e :: rest) jobId = deleteStore rest jobId := by
        simp [deleteStore, List.filter_cons, he]
      rw [this]; exact ih
    · have : deleteStore (e :: rest) jobId = e :: deleteStore rest jobId := by
        simp [deleteStore, List.filter_cons, he]
      rw [this]
      simp only [lookupStore, if_neg he]
      exact ih

/-- **C2.**  For every job whose target list has length `N`, streaming the
job emits exactly `N` progress events, one per target in input order — the
`i`-th (1-based) carrying `processedCount = i`, `totalCount = N` and
`currentWebsite` = the original pre-normalization target string — followed by
exactly one `done` event (the event list has length `N + 1`, its first `N`
entries are progress events and its last is `done`); the job entry is then
deleted, so a subsequent stream request with the same id fails with
`NotFound`. -/
theorem scrapeStream_job_lifecycle (proc : String → Except String SiteResult)
    (store : List (String × List String)) (jobId : String) (urls : List String)
    (hid : jobId ≠ "") (hlk : lookupStore store jobId = some urls) :
    ∃ es store2,
      scrapeStreamRoute proc store jobId = (.ok es, store2) ∧
        es.length = urls.length + 1 ∧
        (∀ i, i < urls.length → ∃ p, es[i]? = some (.progress p) ∧
          p.processedCount = i + 1 ∧ p.totalCount = urls.length ∧
          urls[i]? = some p.currentWebsite) ∧
        es[urls.length]? = some .done ∧
        (scrapeStreamRoute proc store2 jobId).1 = .error .notFound := by
  refine ⟨streamEvents proc urls.length 0 urls, deleteStore store jobId,
    ?_, streamEvents_length proc urls.length urls 0, ?_,
    streamEvents_last proc urls.length urls 0, ?_⟩
  · simp [scrapeStreamRoute, hid, hlk]
  · intro i hi
    obtain ⟨p, h1, h2, h3, h4⟩ := streamEvents_get_progress proc urls.length urls 0 i hi
    exact ⟨p, h1, by omega, h3, h4⟩
  · simp [scrapeStreamRoute, hid, lookupStore_delete store jobId]

/-- Witness for C2 at a concrete two-target job: the store holds job `"j"`
with targets `["a.test", "b.test"]` and the site processor is the concrete
`procW`. -/
theorem scrapeStream_job_lifecycle_witness :
    ∃ es store2,
      scrapeStreamRoute procW [("j", ["a.test", "b.test"])] "j" = (.ok es, store2) ∧
        es.length = ["a.test", "b.test"].length + 1 ∧
        (∀ i, i < ["a.test", "b.test"].length → ∃ p, es[i]? = some (.progress p) ∧
          p.processedCount = i + 1 ∧ p.totalCount = ["a.test", "b.test"].length ∧
          ["a.test", "b.test"][i]? = some p.currentWebsite) ∧
        es[["a.test", "b.test"].length]? = some .done ∧
        (scrapeStreamRoute procW store2 "j").1 = .error .notFound :=
  scrapeStream_job_lifecycle procW [("j", ["a.test", "b.test"])] "j"
    ["a.test", "b.test"] (by decide) (by decide)

/-- **C9.**  The stream handler has no cancellation input at all: nothing in
routes.ts lines 181-254 subscribes to a close/abort event or consults the
response's writable state between targets, so the model — a faithful function
of the handler's only inputs (store, job id, per-target processor) — emits
one progress event for *every* target unconditionally.  Evaluated at the
failing input (job `"j"` with two targets, the channel closed by the caller
after the first event): the second target is still processed and its event
written. -/
theorem scrapeStream_has_no_cancellation_check :
    (scrapeStreamRoute procW [("j", ["a.test", "b.test"])] "j").1 =
      .ok [.progress { website := "https://a.test", emails := [], error := none,
                       processedCount := 1, totalCount := 2, currentWebsite := "a.test" },
           .progress { website := "https://b.test", emails := [], error := none,
                       processedCount := 2, totalCount := 2, currentWebsite := "b.test" },
           .done] := rfl

/-! ## C1, C10: the crawl loop's fetch-trace invariants -/

theorem dropVisited_spec (v : List String) :
    ∀ (q : List String) {u : String} {rest : List String},
      dropVisited v q = u :: rest →
      u ∉ v ∧ u ∈ q ∧ ∀ x ∈ rest, x ∈ q := by
  intro q
  induction q with
  | nil => intro u rest h; simp [dropVisited] at h
  | cons c t ih =>
    intro u rest h
    by_cases hc : c = "" ∨ c ∈ v
    · have heq : dropVisited v (c :: t) = dropVisited v t := by
        simp only [dropVisited]; rw [if_pos hc]
      rw [heq] at h
      obtain ⟨h1, h2, h3⟩ := ih h
      exact ⟨h1, List.mem_cons_of_mem _ h2, fun x hx => List.mem_cons_of_mem _ (h3 x hx)⟩
    · have heq : dropVisited v (c :: t) = c :: t := by
        simp only [dropVisited]; rw [if_neg hc]
      rw [heq] at h
      cases h
      exact ⟨fun hv => hc (Or.inr hv), List.mem_cons_self _ _,
        fun x hx => List.mem_cons_of_mem _ hx⟩

theorem collectLinks_sound (env : CrawlEnv) (domain : String) (vis : List String)
    (cur : String) (hrefs : List String) :
    ∀ x ∈ collectLinks env domain vis cur hrefs,
      extractDomain env x = domain ∧ x ∉ vis := by
  intro x hx
  simp only [collectLinks, List.mem_filterMap] at hx
  obtain ⟨href, _, hsome⟩ := hx
  split at hsome
  · split at hsome
    · rename_i hcond
      injection hsome with h
      subst h
      exact hcond
    · cases hsome
  · cases hsome

theorem crawlVisit_facts (env : CrawlEnv) (domain : String) (maxPages : Nat)
    (s : CrawlState) (u : String) (rest : List String) :
    (crawlVisit env domain maxPages s u rest).log = s.log ++ [u] ∧
      (crawlVisit env domain maxPages s u rest).visited = s.visited ++ [u] ∧
      (crawlVisit env domain maxPages s u rest).pages = s.pages + 1 ∧
      ∀ x ∈ (crawlVisit env domain maxPages s u rest).queue,
        x ∈ rest ∨ extractDomain env x = domain := by
  cases hf : env.fetch u with
  | none =>
    simp only [crawlVisit, hf]
    refine ⟨trivial, trivial, trivial, ?_⟩
    intro x hx
    exact Or.inl hx
  | some pg =>
    by_cases hp : s.pages + 1 < maxPages
    · simp only [crawlVisit, hf, if_pos hp]
      refine ⟨trivial, trivial, trivial, ?_⟩
      intro x hx
      rcases List.mem_append.1 hx with h | h
      · exact Or.inl h
      · exact Or.inr (collectLinks_sound env domain _ u pg.hrefs x h).1
    · simp only [crawlVisit, hf, if_neg hp]
      refine ⟨trivial, trivial, trivial, ?_⟩
      intro x hx
      exact Or.inl hx

theorem crawlGo_inv (env : CrawlEnv) (domain : String) (maxPages : Nat) (seed : String) :
    ∀ (remaining : Nat) (s : CrawlState),
      s.log.Nodup →
      (∀ x ∈ s.log, x ∈ s.visited) →
      (∀ x ∈ s.queue, x = seed ∨ extractDomain env x = domain) →
      (∀ x ∈ s.log, x = seed ∨ extractDomain env x = domain) →
      ((crawlGo env domain maxPages remaining s).log.Nodup ∧
        ∀ x ∈ (crawlGo env domain maxPages remaining s).log,
          x = seed ∨ extractDomain env x = domain) := by
  intro remaining
  induction remaining with
  | zero => intro s h1 _ _ h4; exact ⟨h1, h4⟩
  | succ n ih =>
    intro s h1 h2 h3 h4
    cases hd : dropVisited s.visited s.queue with
    | nil =>
      have heq : crawlGo env domain maxPages (n + 1) s = { s with queue := [] } := by
        simp only [crawlGo]; rw [hd]
      rw [heq]
      exact ⟨h1, h4⟩
    | cons u rest =>
      obtain ⟨huv, huq, hrest⟩ := dropVisited_spec s.visited s.queue hd
      have hul : u ∉ s.log := fun hc => huv (h2 u hc)
      have heq : crawlGo env domain maxPages (n + 1) s
          = crawlGo env domain maxPages n (crawlVisit env domain maxPages s u rest) := by
        simp only [crawlGo]; rw [hd]
      obtain ⟨hlog, hvis, _, hque⟩ := crawlVisit_facts env domain maxPages s u rest
      rw [heq]
      refine ih (crawlVisit env domain maxPages s u rest) ?_ ?_ ?_ ?_
      · rw [hlog, List.nodup_append]
        exact ⟨h1, List.nodup_singleton u, fun a ha hb => by
          rw [List.mem_singleton] at hb; exact hul (hb ▸ ha)⟩
      · intro x hx
        rw [hlog] at hx
        rw [hvis]
        rcases List.mem_append.1 hx with h | h
        · exact List.mem_append.2 (Or.inl (h2 x h))
        · exact List.mem_append.2 (Or.inr h)
      · intro x hx
        rcases hque x hx with h | h
        · exact h3 x (hrest x h)
        · exact Or.inr h
      · intro x hx
        rw [hlog] at hx
        rcases List.mem_append.1 hx with h | h
        · exact h4 x h
        · rw [List.mem_singleton] at h
          exact h ▸ h3 u huq

theorem normalizeUrl_idem (u : String) : normalizeUrl (normalizeUrl u) = normalizeUrl u := by
  cases hcond : (!strStarts u "http://" && !strStarts u "https://") with
  | false => simp [normalizeUrl, hcond]
  | true =>
    have h1 : normalizeUrl u = "https://" ++ u := by simp [normalizeUrl, hcond]
    have h2 : strStarts ("https://" ++ u) "https://" = true := by
      rw [strStarts, String.data_append, List.isPrefixOf_iff_prefix]
      exact List.prefix_append _ _
    rw [h1]
    simp [normalizeUrl, h2]

/-- **C1.**  Within one `crawlWebsite` invocation, no URL string is fetched
twice (the log of URLs passed to `axios.get` has no duplicates), and every
fetched URL is either the normalized seed itself or has `extractDomain` —
the www-stripped host, with the raw string as fallback when URL parsing
fails — equal to the seed's crawl-scope domain.  In particular, whenever the
normalized seed's host parses at all (the non-degenerate case), *every*
fetched URL's www-stripped host equals the seed's. -/
theorem crawlWebsite_no_refetch_same_domain (env : CrawlEnv) (url : String) (B : Nat) :
    (crawlWebsiteRun env url B).log.Nodup ∧
      (∀ u ∈ (crawlWebsiteRun env url B).log,
        u = normalizeUrl url ∨ extractDomain env u = extractDomain env url) ∧
      ∀ h, env.host (normalizeUrl url) = some h →
        ∀ u ∈ (crawlWebsiteRun env url B).log,
          extractDomain env u = extractDomain env url := by
  obtain ⟨hnd, hdom⟩ := crawlGo_inv env (extractDomain env url) B (normalizeUrl url) B
    { queue := [normalizeUrl url], visited := [], emails := [], pages := 0, log := [] }
    (by simp) (by simp) (by intro x hx; rw [List.mem_singleton] at hx; exact Or.inl hx)
    (by simp)
  refine ⟨hnd, hdom, ?_⟩
  intro h hh u hu
  rcases hdom u hu with rfl | hd
  · simp [extractDomain, normalizeUrl_idem, hh]
  · exact hd

theorem crawlGo_budget (env : CrawlEnv) (domain : String) (maxPages : Nat) :
    ∀ (remaining : Nat) (s : CrawlState), s.pages = s.log.length →
      ((crawlGo env domain maxPages remaining s).log.length ≤ s.log.length + remaining ∧
        (crawlGo env domain maxPages remaining s).pages
          = (crawlGo env domain maxPages remaining s).log.length) := by
  intro remaining
  induction remaining with
  | zero =>
    intro s h
    exact ⟨by show s.log.length ≤ s.log.length + 0; omega, h⟩
  | succ n ih =>
    intro s h
    cases hd : dropVisited s.visited s.queue with
    | nil =>
      have heq : crawlGo env domain maxPages (n + 1) s = { s with queue := [] } := by
        simp only [crawlGo]; rw [hd]
      rw [heq]
      exact ⟨by show s.log.length ≤ s.log.length + (n + 1); omega, h⟩
    | cons u rest =>
      have heq : crawlGo env domain maxPages (n + 1) s
          = crawlGo env domain maxPages n (crawlVisit env domain maxPages s u rest) := by
        simp only [crawlGo]; rw [hd]
      obtain ⟨hlog, _, hpages, _⟩ := crawlVisit_facts env domain maxPages s u rest
      have hinv : (crawlVisit env domain maxPages s u rest).pages
          = (crawlVisit env domain maxPages s u rest).log.length := by
        rw [hlog, hpages, List.length_append, h]
        rfl
      obtain ⟨hle, hpg⟩ := ih (crawlVisit env domain maxPages s u rest) hinv
      rw [heq]
      refine ⟨?_, hpg⟩
      rw [hlog, List.length_append] at hle
      simp only [List.length_singleton] at hle
      omega

/-- **C10.**  Within one `crawlWebsite` invocation with page budget `B`, a
dequeued not-yet-visited URL is counted against the budget (`pagesVisited++`)
before its fetch is attempted, so at most `B` fetches are issued in total —
over *every* environment, including ones where every fetch fails — and the
final page count equals the number of fetch attempts: a page whose fetch
fails still consumes exactly one unit of the budget rather than being
replaced by another page. -/
theorem crawlWebsite_budget_counts_failures (env : CrawlEnv) (url : String) (B : Nat) :
    (crawlWebsiteRun env url B).log.length ≤ B ∧
      (crawlWebsiteRun env url B).pages = (crawlWebsiteRun env url B).log.length := by
  have h := crawlGo_budget env (extractDomain env url) B B
    { queue := [normalizeUrl url], visited := [], emails := [], pages := 0, log := [] }
    rfl
  simpa [crawlWebsiteRun] using h

/-! ## C7: the obfuscated `[at]` rewrite -/

theorem ws_spec (c : Char) (h : isWsChar c = true) :
    isLocalChar c = false ∧ isDomChar c = false ∧ c ≠ '[' ∧ c ≠ '@' := by
  have hc : c ∈ wsChars := by
    simp only [isWsChar] at h
    exact List.mem_of_elem_eq_true h
  fin_cases hc <;> exact ⟨rfl, rfl, by decide, by decide⟩

/-- A run of `p`-characters followed by a non-`p` character: `takeWhile`
stops exactly at the break (the run here is a whitespace run, used with the
various character classes). -/
theorem tw_stop {p : Char → Bool} (l₁ : List Char) (h1 : ∀ c ∈ l₁, p c = true)
    (b : Char) (hb : p b = false) (t : List Char) :
    (l₁ ++ b :: t).takeWhile p = l₁ := by
  rw [tw_app _ _ h1]
  simp [List.takeWhile_cons, hb]

theorem dw_stop {p : Char → Bool} (l₁ : List Char) (h1 : ∀ c ∈ l₁, p c = true)
    (b : Char) (hb : p b = false) (t : List Char) :
    (l₁ ++ b :: t).dropWhile p = b :: t := by
  rw [dw_app _ _ h1]
  simp [List.dropWhile_cons, hb]

/-- A run of whitespace followed by a break character kills a `takeWhile`
over a class disjoint from whitespace. -/
theorem ws_brk_tw {p : Char → Bool} (hp : ∀ c, isWsChar c = true → p c = false)
    (ws : List Char) (hws : ∀ c ∈ ws, isWsChar c = true)
    (b : Char) (hb : p b = false) (t : List Char) :
    (ws ++ b :: t).takeWhile p = [] := by
  cases ws with
  | nil => simp [List.takeWhile_cons, hb]
  | cons w ws' => simp [List.takeWhile_cons, hp w (hws w (by simp))]

theorem ws_brk_dw {p : Char → Bool} (hp : ∀ c, isWsChar c = true → p c = false)
    (ws : List Char) (hws : ∀ c ∈ ws, isWsChar c = true)
    (b : Char) (hb : p b = false) (t : List Char) :
    (ws ++ b :: t).dropWhile p = ws ++ b :: t := by
  cases ws with
  | nil => simp [List.dropWhile_cons, hb]
  | cons w ws' => simp [List.dropWhile_cons, hp w (hws w (by simp))]

theorem matchEncodedAt_cons_none (c : Char) (t : List Char)
    (hc : isLocalChar c = false) : matchEncodedAt (c :: t) = none := by
  simp [matchEncodedAt, List.takeWhile_cons, hc]

theorem matchEncodedAt_nil : matchEncodedAt [] = none := by
  simp [matchEncodedAt]

/-- A whitespace prefix is skipped by the global scan, and a match right
after it is recorded. -/
theorem scanAll_mem_encoded {m r : List Char} :
    ∀ (pre l : List Char) (fuel : Nat),
      (∀ c ∈ pre, isWsChar c = true) →
      matchEncodedAt l = some (m, r) →
      (pre ++ l).length ≤ fuel →
      m ∈ scanAll matchEncodedAt fuel (pre ++ l) := by
  intro pre
  induction pre with
  | nil =>
    intro l fuel hws hm hlen
    cases l with
    | nil => rw [matchEncodedAt_nil] at hm; cases hm
    | cons c t =>
      cases fuel with
      | zero => simp at hlen
      | succ f =>
        have heq : scanAll matchEncodedAt (f + 1) ([] ++ c :: t)
            = m :: scanAll matchEncodedAt f r := by
          simp only [List.nil_append, scanAll]
          rw [hm]
        rw [heq]
        exact List.mem_cons_self _ _
  | cons c pre' ih =>
    intro l fuel hws hm hlen
    have hcl : isLocalChar c = false := (ws_spec c (hws c (by simp))).1
    cases fuel with
    | zero => simp at hlen
    | succ f =>
      rw [List.cons_append]
      have hlen' : (pre' ++ l).length ≤ f := by
        simp only [List.cons_append, List.length_cons] at hlen
        omega
      have hmem := ih l f (fun x hx => hws x (by simp [hx])) hm hlen'
      generalize hgen : pre' ++ l = t at hmem ⊢
      have heq : scanAll matchEncodedAt (f + 1) (c :: t) = scanAll matchEncodedAt f t := by
        simp only [scanAll, matchEncodedAt_cons_none c t hcl]
      rw [heq]
      exact hmem

/-- The greedy domain match on `example.com` followed by trailing
whitespace. -/
theorem matchDomainAt_example (ws3 : List Char) (h3 : ∀ c ∈ ws3, isWsChar c = true) :
    matchDomainAt ("example.com".data ++ ws3) = some ("example.com".data, ws3) := by
  have hdom : ∀ c ∈ "example.com".data, isDomChar c = true := by decide
  have hws : ∀ c ∈ ws3, isDomChar c = false := fun c hc => (ws_spec c (h3 c hc)).2.1
  have hrun : ("example.com".data ++ ws3).takeWhile isDomChar = "example.com".data := by
    rw [tw_app _ _ hdom, tw_nil ws3 hws, List.append_nil]
  simp only [matchDomainAt]
  rw [hrun]
  rw [show searchDot "example.com".data ("example.com".data.length - 1) = some 7 from by
    decide]
  simp only []
  rw [show domTail "example.com".data 7 = "com".data from by decide]
  rw [show ("example.com".data.take 7 ++ '.' :: "com".data) = "example.com".data from by
    decide]
  rw [show (7 + 1 + "com".data.length) = "example.com".data.length from by decide]
  rw [List.drop_left]

/-- The full `ENCODED_EMAIL_REGEX` match on the obfuscated form with
arbitrary whitespace around the `[at]` token. -/
theorem matchEncodedAt_form (ws1 ws2 ws3 : List Char)
    (h1 : ∀ c ∈ ws1, isWsChar c = true) (h2 : ∀ c ∈ ws2, isWsChar c = true)
    (h3 : ∀ c ∈ ws3, isWsChar c = true) :
    matchEncodedAt ("user".data ++ (ws1 ++ ('[' :: 'a' :: 't' :: ']' ::
        (ws2 ++ ("example.com".data ++ ws3)))))
      = some ("user".data ++ ws1 ++ '[' :: 'a' :: 't' :: ']' ::
          (ws2 ++ "example.com".data), ws3) := by
  have hploc : ∀ c, isWsChar c = true → isLocalChar c = false :=
    fun c hc => (ws_spec c hc).1
  have huser : ∀ c ∈ "user".data, isLocalChar c = true := by decide
  have hE : "example.com".data = 'e' :: "xample.com".data := rfl
  have e1 : ("user".data ++ (ws1 ++ ('[' :: 'a' :: 't' :: ']' ::
      (ws2 ++ ("example.com".data ++ ws3))))).takeWhile isLocalChar = "user".data := by
    rw [tw_app _ _ huser, ws_brk_tw hploc ws1 h1 '[' (by decide), List.append_nil]
  have e2 : ("user".data ++ (ws1 ++ ('[' :: 'a' :: 't' :: ']' ::
      (ws2 ++ ("example.com".data ++ ws3))))).dropWhile isLocalChar
      = ws1 ++ ('[' :: 'a' :: 't' :: ']' :: (ws2 ++ ("example.com".data ++ ws3))) := by
    rw [dw_app _ _ huser, ws_brk_dw hploc ws1 h1 '[' (by decide)]
  have e3 : (ws1 ++ ('[' :: 'a' :: 't' :: ']' ::
      (ws2 ++ ("example.com".data ++ ws3)))).takeWhile isWsChar = ws1 :=
    tw_stop ws1 h1 '[' (by decide) _
  have e4 : (ws1 ++ ('[' :: 'a' :: 't' :: ']' ::
      (ws2 ++ ("example.com".data ++ ws3)))).dropWhile isWsChar
      = '[' :: 'a' :: 't' :: ']' :: (ws2 ++ ("example.com".data ++ ws3)) :=
    dw_stop ws1 h1 '[' (by decide) _
  have e7 : (ws2 ++ ("example.com".data ++ ws3)).takeWhile isWsChar = ws2 := by
    rw [hE, List.cons_append]
    exact tw_stop ws2 h2 'e' (by decide) _
  have e8 : (ws2 ++ ("example.com".data ++ ws3)).dropWhile isWsChar
      = "example.com".data ++ ws3 := by
    rw [hE, List.cons_append]
    exact (dw_stop ws2 h2 'e' (by decide) _).trans rfl
  simp only [matchEncodedAt, e1, e2, e3, e4]
  rw [if_neg (by decide)]
  rw [if_pos (show ('[' :: 'a' :: 't' :: ']' ::
    (ws2 ++ ("example.com".data ++ ws3))).take 4 = ['[', 'a', 't', ']'] from rfl)]
  rw [show ('[' :: 'a' :: 't' :: ']' :: (ws2 ++ ("example.com".data ++ ws3))).drop 4
    = ws2 ++ ("example.com".data ++ ws3) from rfl]
  rw [e7, e8, matchDomainAt_example ws3 h3]
  simp [List.append_assoc]

theorem matchTokAt_cons_none (c : Char) (t : List Char)
    (hw : isWsChar c = false) (hb : c ≠ '[') : matchTokAt (c :: t) = none := by
  simp [matchTokAt, List.dropWhile_cons, hw, List.take_succ_cons, hb]

theorem replTok_skip (c : Char) (t : List Char) (hw : isWsChar c = false)
    (hb : c ≠ '[') : replTok (c :: t) = c :: replTok t := by
  simp only [replTok]
  rw [matchTokAt_cons_none c t hw hb]

theorem matchTokAt_hit (ws1 ws2 : List Char)
    (h1 : ∀ c ∈ ws1, isWsChar c = true) (h2 : ∀ c ∈ ws2, isWsChar c = true)
    (b : Char) (hbws : isWsChar b = false) (t : List Char) :
    matchTokAt (ws1 ++ '[' :: 'a' :: 't' :: ']' :: (ws2 ++ b :: t)) = some (b :: t) := by
  simp only [matchTokAt]
  rw [dw_stop ws1 h1 '[' (by decide)]
  simp [dw_stop ws2 h2 b hbws]

theorem replTok_at (ws1 ws2 : List Char)
    (h1 : ∀ c ∈ ws1, isWsChar c = true) (h2 : ∀ c ∈ ws2, isWsChar c = true)
    (b : Char) (hbws : isWsChar b = false) (t : List Char) :
    replTok (ws1 ++ '[' :: 'a' :: 't' :: ']' :: (ws2 ++ b :: t)) = '@' :: b :: t := by
  cases ws1 with
  | nil =>
    have hh := matchTokAt_hit [] ws2 (by simp) h2 b hbws t
    simp only [List.nil_append] at hh ⊢
    simp only [replTok]
    rw [hh]
  | cons w ws1' =>
    have hh := matchTokAt_hit (w :: ws1') ws2 h1 h2 b hbws t
    simp only [List.cons_append] at hh ⊢
    simp only [replTok]
    rw [hh]

theorem replTok_form (ws1 ws2 : List Char)
    (h1 : ∀ c ∈ ws1, isWsChar c = true) (h2 : ∀ c ∈ ws2, isWsChar c = true) :
    replTok ("user".data ++ (ws1 ++ ('[' :: 'a' :: 't' :: ']' ::
        (ws2 ++ "example.com".data)))) = "user@example.com".data := by
  have hE : "example.com".data = 'e' :: "xample.com".data := rfl
  have key : replTok (ws1 ++ '[' :: 'a' :: 't' :: ']' :: (ws2 ++ "example.com".data))
      = '@' :: "example.com".data := by
    rw [hE]
    exact replTok_at ws1 ws2 h1 h2 'e' (by decide) _
  show replTok ('u' :: 's' :: 'e' :: 'r' :: (ws1 ++ '[' :: 'a' :: 't' :: ']' ::
      (ws2 ++ "example.com".data))) = "user@example.com".data
  rw [replTok_skip 'u' _ (by decide) (by decide), replTok_skip 's' _ (by decide) (by decide),
    replTok_skip 'e' _ (by decide) (by decide), replTok_skip 'r' _ (by decide) (by decide),
    key]

/-- **C7.**  For every HTML body whose visible text contains the obfuscated
form `user [at] example.com` — with arbitrary whitespace (`ws1`, `ws2`)
around the `[at]` token and arbitrary surrounding whitespace (`ws0`, `ws3`) —
and any anchors, the Extractor's result includes the rewritten address
`user@example.com`. -/
theorem extractEmailsFromHTML_obfuscated (ws0 ws1 ws2 ws3 : List Char)
    (anchors : List String)
    (h0 : ∀ c ∈ ws0, isWsChar c = true) (h1 : ∀ c ∈ ws1, isWsChar c = true)
    (h2 : ∀ c ∈ ws2, isWsChar c = true) (h3 : ∀ c ∈ ws3, isWsChar c = true) :
    "user@example.com" ∈ extractEmailsFromHTML
      (ws0 ++ "user".data ++ ws1 ++ "[at]".data ++ ws2 ++ "example.com".data ++ ws3)
      anchors := by
  have htext : ws0 ++ "user".data ++ ws1 ++ "[at]".data ++ ws2 ++ "example.com".data ++ ws3
      = ws0 ++ ("user".data ++ (ws1 ++ ('[' :: 'a' :: 't' :: ']' ::
          (ws2 ++ ("example.com".data ++ ws3))))) := by
    rw [show "[at]".data = '[' :: 'a' :: 't' :: ']' :: ([] : List Char) from rfl]
    simp [List.append_assoc]
  rw [htext]
  have hm := matchEncodedAt_form ws1 ws2 ws3 h1 h2 h3
  have hmem : ("user".data ++ ws1 ++ '[' :: 'a' :: 't' :: ']' ::
      (ws2 ++ "example.com".data)) ∈ jsEncodedMatches
        (ws0 ++ ("user".data ++ (ws1 ++ ('[' :: 'a' :: 't' :: ']' ::
          (ws2 ++ ("example.com".data ++ ws3)))))) := by
    simp only [jsEncodedMatches]
    exact scanAll_mem_encoded ws0 _ _ h0 hm (le_refl _)
  have hrt : replTok ("user".data ++ ws1 ++ '[' :: 'a' :: 't' :: ']' ::
      (ws2 ++ "example.com".data)) = "user@example.com".data := by
    have := replTok_form ws1 ws2 h1 h2
    simpa [List.append_assoc] using this
  have hne : (jsEmailMatches "user@example.com".data).isEmpty = false := by decide
  simp only [extractEmailsFromHTML]
  refine mem_dedupKeepFirst ?_
  refine List.mem_append.2 (Or.inl (List.mem_append.2 (Or.inr ?_)))
  refine List.mem_filterMap.2 ⟨_, hmem, ?_⟩
  simp only [hrt, hne]
  rfl

/-- Witness for C7 at a concrete body: a single space on each side of the
`[at]` token, no surrounding whitespace, no anchors. -/
theorem extractEmailsFromHTML_obfuscated_witness :
    "user@example.com" ∈ extractEmailsFromHTML
      (([] : List Char) ++ "user".data ++ [' '] ++ "[at]".data ++ [' ']
        ++ "example.com".data ++ ([] : List Char)) [] :=
  extractEmailsFromHTML_obfuscated [] [' '] [' '] [] []
    (by simp) (by decide) (by decide) (by simp)

end EmailScraper
